import Mathlib

/-!
Verification of the two pseudo-random generators implemented in
`code/detour-group-theory.cpp`:

* `SerialNumberGenerator`: a linear congruential engine
  (multiplier 261, increment 1, modulus 676000, seed 123456) whose output is
  turned into a five-character serial string (two uppercase letters followed
  by three decimal digits) via repeated division.
* `Z256Generator`: an additive counter `state := (state + 191) % 256`
  starting at 42.

All machine integers involved stay far below any overflow bound
(`261 * 675999 + 1 < 2^32`, `255 + 191 < 2^31`), so both generators are
embedded over `Nat`; the `int`-typed counter is additionally modelled over
`Int` with C++ truncated `%` (`Int.tmod`) to justify that embedding.
-/

set_option maxRecDepth 8192

namespace DetourGroupTheory

/-- One step of `std::linear_congruential_engine<std::uint_fast32_t, 261, 1, 676'000>`:
`operator()` advances the state to `(261 * state + 1) mod 676000` and returns it. -/
def lcgStep (x : Nat) : Nat := (261 * x + 1) % 676000

/-- The serial-number generator: its only state is the LCG engine `lcg_`. -/
structure SerialNumberGenerator where
  lcg_ : Nat
deriving DecidableEq

/-- A freshly constructed `SerialNumberGenerator`: the engine is seeded with `123'456`. -/
def SerialNumberGenerator.init : SerialNumberGenerator := ⟨123456⟩

/-- The lambda `add_digit` inside `SerialNumberGenerator::next`: pushes the
character `offset + val % base` onto the serial string and returns `val / base`.
(`std::div` on non-negative operands is plain truncating division.) -/
def add_digit (serial : List Char) (val : Nat) (base : Nat) (offset : Char) :
    List Char × Nat :=
  (serial ++ [Char.ofNat (offset.toNat + val % base)], val / base)

/-- `SerialNumberGenerator::next()`: draw one value from the engine, then emit
five characters with bases 26, 26, 10, 10, 10 and offsets 'A', 'A', '0', '0', '0',
in this order. Returns the serial string together with the updated generator. -/
def SerialNumberGenerator.next (g : SerialNumberGenerator) :
    List Char × SerialNumberGenerator :=
  let value := lcgStep g.lcg_
  let r1 := add_digit [] value 26 'A'
  let r2 := add_digit r1.1 r1.2 26 'A'
  let r3 := add_digit r2.1 r2.2 10 '0'
  let r4 := add_digit r3.1 r3.2 10 '0'
  let r5 := add_digit r4.1 r4.2 10 '0'
  (r5.1, ⟨value⟩)

/-- The cyclic counter: its state is the `int` member `state_`, kept as a `Nat`
(the `Int` model below shows the value is always non-negative). -/
structure Z256Generator where
  state_ : Nat
deriving DecidableEq

/-- A freshly constructed `Z256Generator`: `state_` starts at 42. -/
def Z256Generator.init : Z256Generator := ⟨42⟩

/-- The state update of `Z256Generator::next()`: `state_ = (state_ + 191) % 256`. -/
def z256Step (x : Nat) : Nat := (x + 191) % 256

/-- `Z256Generator::next()`: update the state and return the new state. -/
def Z256Generator.next (g : Z256Generator) : Nat × Z256Generator :=
  let s := z256Step g.state_
  (s, ⟨s⟩)

/-- The list of outputs of `n` successive `next()` calls on a serial generator. -/
def runSerial : SerialNumberGenerator → Nat → List (List Char)
  | _, 0 => []
  | g, n + 1 =>
    let r := g.next
    r.1 :: runSerial r.2 n

/-- The list of outputs of `n` successive `next()` calls on a cyclic counter. -/
def runZ256 : Z256Generator → Nat → List Nat
  | _, 0 => []
  | g, n + 1 =>
    let r := g.next
    r.1 :: runZ256 r.2 n

/-- Closed form of the five characters produced by `next()` from the drawn value `v`. -/
def serialDecompose (v : Nat) : List Char :=
  [Char.ofNat (65 + v % 26),
   Char.ofNat (65 + v / 26 % 26),
   Char.ofNat (48 + v / 26 / 26 % 10),
   Char.ofNat (48 + v / 26 / 26 / 10 % 10),
   Char.ofNat (48 + v / 26 / 26 / 10 / 10 % 10)]

/-- Modelled from the spec: the generic mixed-radix decomposition of §4.2,
low-order digit first; at each step emit `offset + v mod radix` and continue
with `v div radix`, characters in extraction order. -/
def mixedRadixDecompose : Nat → List (Nat × Char) → List Char
  | _, [] => []
  | v, (base, offset) :: rest =>
    Char.ofNat (offset.toNat + v % base) :: mixedRadixDecompose (v / base) rest

/-- Recognizer for well-formed serial strings: exactly five characters, two
uppercase ASCII letters followed by three ASCII decimal digits. -/
def isSerialFormat : List Char → Bool
  | [c1, c2, c3, c4, c5] =>
    (65 ≤ c1.toNat && c1.toNat ≤ 90) && (65 ≤ c2.toNat && c2.toNat ≤ 90) &&
    (48 ≤ c3.toNat && c3.toNat ≤ 57) && (48 ≤ c4.toNat && c4.toNat ≤ 57) &&
    (48 ≤ c5.toNat && c5.toNat ≤ 57)
  | _ => false

/-- Increment sequence of the LCG: `cseq n = 1 + 261 + ... + 261 ^ (n - 1)`,
so that `lcgStep` iterated `n` times sends `x` to `(261 ^ n * x + cseq n) % 676000`. -/
def cseq : Nat → Nat
  | 0 => 0
  | n + 1 => 261 * cseq n + 1

/-- Binary modular evaluation of `(261 ^ n % 676000, cseq n % 676000)`;
the first argument is recursion fuel (any bound with `n < 2 ^ fuel` works). -/
def affinePowAux : Nat → Nat → Nat × Nat
  | 0, _ => (1, 0)
  | _ + 1, 0 => (1, 0)
  | fuel + 1, n + 1 =>
    let pc := affinePowAux fuel ((n + 1) / 2)
    let p2 := pc.1 * pc.1 % 676000
    let c2 := (pc.1 * pc.2 + pc.2) % 676000
    if (n + 1) % 2 = 0 then (p2, c2) else (261 * p2 % 676000, (261 * c2 + 1) % 676000)

/-- `affinePow n = (261 ^ n % 676000, cseq n % 676000)` for every `n < 2 ^ 64`. -/
def affinePow (n : Nat) : Nat × Nat := affinePowAux 64 n

theorem lcgStep_lt (x : Nat) : lcgStep x < 676000 := Nat.mod_lt _ (by norm_num)

theorem cseq_succ (n : Nat) : cseq (n + 1) = 261 * cseq n + 1 := rfl

theorem cseq_add (a b : Nat) : cseq (a + b) = 261 ^ b * cseq a + cseq b := by
  induction b with
  | zero => simp [cseq]
  | succ b ih =>
    have h1 : a + (b + 1) = (a + b) + 1 := rfl
    rw [h1, cseq_succ, ih, cseq_succ, pow_succ]
    ring

theorem lcg_iterate (n x : Nat) :
    lcgStep^[n + 1] x = (261 ^ (n + 1) * x + cseq (n + 1)) % 676000 := by
  induction n with
  | zero => simp [lcgStep, cseq_succ, cseq]
  | succ n ih =>
    rw [Function.iterate_succ_apply', ih]
    show (261 * ((261 ^ (n + 1) * x + cseq (n + 1)) % 676000) + 1) % 676000 = _
    have h : (261 * ((261 ^ (n + 1) * x + cseq (n + 1)) % 676000) + 1) % 676000
        = (261 * (261 ^ (n + 1) * x + cseq (n + 1)) + 1) % 676000 :=
      ((Nat.mod_modEq _ _).mul_left 261).add_right 1
    rw [h]
    congr 1
    rw [cseq_succ (n + 1), pow_succ]
    ring

theorem affinePowAux_correct : ∀ fuel n, n < 2 ^ fuel →
    affinePowAux fuel n = (261 ^ n % 676000, cseq n % 676000) := by
  intro fuel
  induction fuel with
  | zero =>
    intro n hn
    have h0 : n = 0 := by
      norm_num at hn
      omega
    subst h0
    rfl
  | succ fuel ih =>
    intro n hn
    match n with
    | 0 => rfl
    | m + 1 =>
      have hhalf : (m + 1) / 2 < 2 ^ fuel := by
        have h2 : 2 ^ (fuel + 1) = 2 * 2 ^ fuel := by rw [pow_succ]; ring
        omega
      have ih2 := ih ((m + 1) / 2) hhalf
      have hunfold : affinePowAux (fuel + 1) (m + 1)
          = (if (m + 1) % 2 = 0 then
              ((affinePowAux fuel ((m + 1) / 2)).1 * (affinePowAux fuel ((m + 1) / 2)).1
                 % 676000,
               ((affinePowAux fuel ((m + 1) / 2)).1 * (affinePowAux fuel ((m + 1) / 2)).2
                 + (affinePowAux fuel ((m + 1) / 2)).2) % 676000)
             else
              (261 * ((affinePowAux fuel ((m + 1) / 2)).1
                 * (affinePowAux fuel ((m + 1) / 2)).1 % 676000) % 676000,
               (261 * (((affinePowAux fuel ((m + 1) / 2)).1
                 * (affinePowAux fuel ((m + 1) / 2)).2
                 + (affinePowAux fuel ((m + 1) / 2)).2) % 676000) + 1) % 676000)) := rfl
      rw [hunfold, ih2]
      dsimp only
      set k := (m + 1) / 2 with hk
      have hpp : 261 ^ k % 676000 * (261 ^ k % 676000) % 676000
          = 261 ^ (k + k) % 676000 := by
        rw [pow_add]
        exact (Nat.mod_modEq _ _).mul (Nat.mod_modEq _ _)
      have hcc : (261 ^ k % 676000 * (cseq k % 676000) + cseq k % 676000) % 676000
          = cseq (k + k) % 676000 := by
        rw [cseq_add]
        exact ((Nat.mod_modEq _ _).mul (Nat.mod_modEq _ _)).add (Nat.mod_modEq _ _)
      by_cases hpar : (m + 1) % 2 = 0
      · have hmk : m + 1 = k + k := by omega
        rw [if_pos hpar, hpp, hcc, hmk]
      · have hmk : m + 1 = (k + k) + 1 := by omega
        rw [if_neg hpar, hpp, hcc, hmk]
        have hp : 261 * (261 ^ (k + k) % 676000) % 676000
            = 261 ^ ((k + k) + 1) % 676000 := by
          have h1 : 261 * (261 ^ (k + k) % 676000) % 676000
              = 261 * 261 ^ (k + k) % 676000 := (Nat.mod_modEq _ _).mul_left 261
          rw [h1, pow_succ, mul_comm]
        have hc : (261 * (cseq (k + k) % 676000) + 1) % 676000
            = cseq ((k + k) + 1) % 676000 := by
          have h1 : (261 * (cseq (k + k) % 676000) + 1) % 676000
              = (261 * cseq (k + k) + 1) % 676000 :=
            ((Nat.mod_modEq _ _).mul_left 261).add_right 1
          rw [h1, cseq_succ]
        rw [hp, hc]

theorem affinePow_spec (n : Nat) (hn : n < 2 ^ 64) :
    (affinePow n).1 = 261 ^ n % 676000 ∧ (affinePow n).2 = cseq n % 676000 := by
  unfold affinePow
  rw [affinePowAux_correct 64 n hn]
  exact ⟨rfl, rfl⟩

theorem pow_261_mod (n p c : Nat) (hn : n < 2 ^ 64) (h : affinePow n = (p, c)) :
    261 ^ n % 676000 = p ∧ cseq n % 676000 = c := by
  obtain ⟨h1, h2⟩ := affinePow_spec n hn
  rw [h] at h1 h2
  exact ⟨h1.symm, h2.symm⟩

theorem lcg_full_period (x : Nat) (hx : x < 676000) : lcgStep^[676000] x = x := by
  obtain ⟨hp, hc⟩ := pow_261_mod 676000 1 0 (by norm_num) (by decide)
  have h := lcg_iterate 675999 x
  rw [show (675999 + 1 : Nat) = 676000 from rfl] at h
  have hmod : (261 ^ 676000 * x + cseq 676000) % 676000 = (1 * x + 0) % 676000 := by
    have h1 : Nat.ModEq 676000 (261 ^ 676000) 1 := by
      show 261 ^ 676000 % 676000 = 1 % 676000
      rw [hp]
    have h2 : Nat.ModEq 676000 (cseq 676000) 0 := by
      show cseq 676000 % 676000 = 0 % 676000
      rw [hc]
    exact (h1.mul_right x).add h2
  rw [h, hmod, one_mul, Nat.add_zero, Nat.mod_eq_of_lt hx]

theorem lcg_no_fixed (d c : Nat) (hp : 261 ^ d % 676000 = 1)
    (hc : cseq d % 676000 = c) (hcpos : 0 < c) (hclt : c < 676000) (x : Nat) :
    lcgStep^[d] x ≠ x := by
  intro hfix
  have hd : d ≠ 0 := by
    intro h0
    rw [h0] at hc
    simp [cseq] at hc
    omega
  obtain ⟨m, rfl⟩ : ∃ m, d = m + 1 := ⟨d - 1, by omega⟩
  rw [lcg_iterate m x] at hfix
  have hxlt : x < 676000 := by
    rw [← hfix]
    exact Nat.mod_lt _ (by norm_num)
  have h1 : Nat.ModEq 676000 (261 ^ (m + 1) * x + cseq (m + 1)) (1 * x + c) := by
    have hp1 : Nat.ModEq 676000 (261 ^ (m + 1)) 1 := by
      show 261 ^ (m + 1) % 676000 = 1 % 676000
      rw [hp]
    have hc1 : Nat.ModEq 676000 (cseq (m + 1)) c := by
      show cseq (m + 1) % 676000 = c % 676000
      rw [hc, Nat.mod_eq_of_lt hclt]
    exact (hp1.mul_right x).add hc1
  have h2 : Nat.ModEq 676000 (261 ^ (m + 1) * x + cseq (m + 1)) x := by
    show _ % 676000 = x % 676000
    rw [hfix, Nat.mod_eq_of_lt hxlt]
  have h3 : Nat.ModEq 676000 (x + c) (x + 0) := by
    have h := (h1.symm.trans h2)
    rw [one_mul] at h
    simpa using h
  have h4 : (676000 : Nat) ∣ c := Nat.modEq_zero_iff_dvd.mp (h3.add_left_cancel' x)
  have := Nat.le_of_dvd hcpos h4
  omega

theorem lcg_no_fixed_338000 (x : Nat) : lcgStep^[338000] x ≠ x := by
  obtain ⟨hp, hc⟩ := pow_261_mod 338000 1 338000 (by norm_num) (by decide)
  exact lcg_no_fixed 338000 338000 hp hc (by norm_num) (by norm_num) x

theorem lcg_no_fixed_135200 (x : Nat) : lcgStep^[135200] x ≠ x := by
  obtain ⟨hp, hc⟩ := pow_261_mod 135200 1 135200 (by norm_num) (by decide)
  exact lcg_no_fixed 135200 135200 hp hc (by norm_num) (by norm_num) x

theorem lcg_no_fixed_52000 (x : Nat) : lcgStep^[52000] x ≠ x := by
  obtain ⟨hp, hc⟩ := pow_261_mod 52000 1 52000 (by norm_num) (by decide)
  exact lcg_no_fixed 52000 52000 hp hc (by norm_num) (by norm_num) x

theorem prime_dvd_676000 (q : Nat) (hq : q.Prime) (hdvd : q ∣ 676000) :
    q = 2 ∨ q = 5 ∨ q = 13 := by
  have h : (676000 : Nat) = 2 ^ 5 * (5 ^ 3 * 13 ^ 2) := by norm_num
  rw [h] at hdvd
  rcases (Nat.Prime.dvd_mul hq).mp hdvd with h1 | h23
  · exact Or.inl ((Nat.prime_dvd_prime_iff_eq hq Nat.prime_two).mp (hq.dvd_of_dvd_pow h1))
  · rcases (Nat.Prime.dvd_mul hq).mp h23 with h2 | h3
    · exact Or.inr (Or.inl ((Nat.prime_dvd_prime_iff_eq hq (by norm_num)).mp
        (hq.dvd_of_dvd_pow h2)))
    · exact Or.inr (Or.inr ((Nat.prime_dvd_prime_iff_eq hq (by norm_num)).mp
        (hq.dvd_of_dvd_pow h3)))

theorem lcg_no_small_period (x k : Nat) (hk : 0 < k) (hklt : k < 676000) :
    lcgStep^[k] x ≠ x := by
  intro hfix
  have hxlt : x < 676000 := by
    obtain ⟨m, hm⟩ : ∃ m, k = m + 1 := ⟨k - 1, by omega⟩
    rw [hm, lcg_iterate m x] at hfix
    rw [← hfix]
    exact Nat.mod_lt _ (by norm_num)
  have hper : Function.IsPeriodicPt lcgStep k x := hfix
  have hperM : Function.IsPeriodicPt lcgStep 676000 x := lcg_full_period x hxlt
  have htpos : 0 < Function.minimalPeriod lcgStep x :=
    Function.IsPeriodicPt.minimalPeriod_pos hk hper
  have htk : Function.minimalPeriod lcgStep x ∣ k := hper.minimalPeriod_dvd
  have htM : Function.minimalPeriod lcgStep x ∣ 676000 := hperM.minimalPeriod_dvd
  have htlt : Function.minimalPeriod lcgStep x < 676000 :=
    lt_of_le_of_lt (Nat.le_of_dvd hk htk) hklt
  set t := Function.minimalPeriod lcgStep x with ht
  obtain ⟨s, hs⟩ := htM
  have hspos : s ≠ 0 := by
    intro h0
    rw [h0, Nat.mul_zero] at hs
    exact absurd hs (by norm_num)
  have hs1 : 1 < s := by
    rcases Nat.lt_or_ge s 2 with h | h
    · interval_cases s
      · exact absurd rfl hspos
      · rw [Nat.mul_one] at hs
        omega
    · omega
  have hq : (s.minFac).Prime := Nat.minFac_prime (by omega)
  have hqs : s.minFac ∣ s := Nat.minFac_dvd s
  have hqM : s.minFac ∣ 676000 := by
    rw [hs]
    exact Dvd.dvd.mul_left hqs t
  have htq : t * s.minFac ∣ 676000 := by
    rw [hs]
    exact mul_dvd_mul_left t hqs
  have hqpos : 0 < s.minFac := hq.pos
  have key : ∀ d : Nat, t ∣ d → lcgStep^[d] x = x := by
    intro d hdvd
    have h := (Function.isPeriodicPt_minimalPeriod lcgStep x).trans_dvd hdvd
    exact h
  rcases prime_dvd_676000 s.minFac hq hqM with h2 | h5 | h13
  · rw [h2] at htq
    have hdvd : t ∣ 338000 := by
      have h : t * 2 ∣ 2 * 338000 := by
        rw [show (2 * 338000 : Nat) = 676000 from by norm_num]
        exact htq
      rw [mul_comm t 2] at h
      exact (mul_dvd_mul_iff_left (two_ne_zero)).mp h
    exact lcg_no_fixed_338000 x (key 338000 hdvd)
  · rw [h5] at htq
    have hdvd : t ∣ 135200 := by
      have h : t * 5 ∣ 5 * 135200 := by
        rw [show (5 * 135200 : Nat) = 676000 from by norm_num]
        exact htq
      rw [mul_comm t 5] at h
      exact (mul_dvd_mul_iff_left (by norm_num : (5 : Nat) ≠ 0)).mp h
    exact lcg_no_fixed_135200 x (key 135200 hdvd)
  · rw [h13] at htq
    have hdvd : t ∣ 52000 := by
      have h : t * 13 ∣ 13 * 52000 := by
        rw [show (13 * 52000 : Nat) = 676000 from by norm_num]
        exact htq
      rw [mul_comm t 13] at h
      exact (mul_dvd_mul_iff_left (by norm_num : (13 : Nat) ≠ 0)).mp h
    exact lcg_no_fixed_52000 x (key 52000 hdvd)

theorem char_toNat_lt : ∀ n < 128, (Char.ofNat n).toNat = n := by decide

theorem next_fst (g : SerialNumberGenerator) :
    (g.next).1 = serialDecompose (lcgStep g.lcg_) := rfl

theorem next_snd (g : SerialNumberGenerator) :
    (g.next).2 = ⟨lcgStep g.lcg_⟩ := rfl

theorem serialDecompose_inj (a b : Nat) (ha : a < 676000) (hb : b < 676000)
    (h : serialDecompose a = serialDecompose b) : a = b := by
  simp only [serialDecompose, List.cons.injEq, and_true] at h
  obtain ⟨h1, h2, h3, h4, h5⟩ := h
  have e1 : 65 + a % 26 = 65 + b % 26 := by
    have e := congrArg Char.toNat h1
    rwa [char_toNat_lt _ (by omega), char_toNat_lt _ (by omega)] at e
  have e2 : 65 + a / 26 % 26 = 65 + b / 26 % 26 := by
    have e := congrArg Char.toNat h2
    rwa [char_toNat_lt _ (by omega), char_toNat_lt _ (by omega)] at e
  have e3 : 48 + a / 26 / 26 % 10 = 48 + b / 26 / 26 % 10 := by
    have e := congrArg Char.toNat h3
    rwa [char_toNat_lt _ (by omega), char_toNat_lt _ (by omega)] at e
  have e4 : 48 + a / 26 / 26 / 10 % 10 = 48 + b / 26 / 26 / 10 % 10 := by
    have e := congrArg Char.toNat h4
    rwa [char_toNat_lt _ (by omega), char_toNat_lt _ (by omega)] at e
  have e5 : 48 + a / 26 / 26 / 10 / 10 % 10 = 48 + b / 26 / 26 / 10 / 10 % 10 := by
    have e := congrArg Char.toNat h5
    rwa [char_toNat_lt _ (by omega), char_toNat_lt _ (by omega)] at e
  omega

theorem serialDecompose_surj (s : List Char) (hs : isSerialFormat s = true) :
    ∃ v, v < 676000 ∧ serialDecompose v = s := by
  match s with
  | [c1, c2, c3, c4, c5] =>
    simp only [isSerialFormat, Bool.and_eq_true, decide_eq_true_eq] at hs
    obtain ⟨⟨⟨⟨h1a, h1b⟩, h2a, h2b⟩, h3a, h3b⟩, h4a, h4b⟩ := hs.1
    obtain ⟨h5a, h5b⟩ := hs.2
    refine ⟨(c1.toNat - 65) + 26 * ((c2.toNat - 65) + 26 * ((c3.toNat - 48)
      + 10 * ((c4.toNat - 48) + 10 * (c5.toNat - 48)))), by omega, ?_⟩
    simp only [serialDecompose, List.cons.injEq, and_true]
    refine ⟨?_, ?_, ?_, ?_, ?_⟩
    · rw [show 65 + ((c1.toNat - 65) + 26 * ((c2.toNat - 65) + 26 * ((c3.toNat - 48)
          + 10 * ((c4.toNat - 48) + 10 * (c5.toNat - 48))))) % 26 = c1.toNat by omega]
      exact Char.ofNat_toNat c1
    · rw [show 65 + ((c1.toNat - 65) + 26 * ((c2.toNat - 65) + 26 * ((c3.toNat - 48)
          + 10 * ((c4.toNat - 48) + 10 * (c5.toNat - 48))))) / 26 % 26 = c2.toNat by omega]
      exact Char.ofNat_toNat c2
    · rw [show 48 + ((c1.toNat - 65) + 26 * ((c2.toNat - 65) + 26 * ((c3.toNat - 48)
          + 10 * ((c4.toNat - 48) + 10 * (c5.toNat - 48))))) / 26 / 26 % 10
          = c3.toNat by omega]
      exact Char.ofNat_toNat c3
    · rw [show 48 + ((c1.toNat - 65) + 26 * ((c2.toNat - 65) + 26 * ((c3.toNat - 48)
          + 10 * ((c4.toNat - 48) + 10 * (c5.toNat - 48))))) / 26 / 26 / 10 % 10
          = c4.toNat by omega]
      exact Char.ofNat_toNat c4
    · rw [show 48 + ((c1.toNat - 65) + 26 * ((c2.toNat - 65) + 26 * ((c3.toNat - 48)
          + 10 * ((c4.toNat - 48) + 10 * (c5.toNat - 48))))) / 26 / 26 / 10 / 10 % 10
          = c5.toNat by omega]
      exact Char.ofNat_toNat c5

theorem serialDecompose_format (v : Nat) : isSerialFormat (serialDecompose v) = true := by
  simp only [serialDecompose, isSerialFormat]
  rw [char_toNat_lt (65 + v % 26) (by omega),
      char_toNat_lt (65 + v / 26 % 26) (by omega),
      char_toNat_lt (48 + v / 26 / 26 % 10) (by omega),
      char_toNat_lt (48 + v / 26 / 26 / 10 % 10) (by omega),
      char_toNat_lt (48 + v / 26 / 26 / 10 / 10 % 10) (by omega)]
  simp only [Bool.and_eq_true, decide_eq_true_eq]
  omega

theorem runSerial_eq_map (g : SerialNumberGenerator) (n : Nat) :
    runSerial g n
      = (List.range n).map (fun k => serialDecompose (lcgStep^[k + 1] g.lcg_)) := by
  induction n generalizing g with
  | zero => rfl
  | succ n ih =>
    rw [List.range_succ_eq_map, List.map_cons, List.map_map]
    show (g.next).1 :: runSerial (g.next).2 n = _
    rw [next_fst, next_snd, ih]
    congr 1

theorem lcg_iterate_lt (n x : Nat) : lcgStep^[n + 1] x < 676000 := by
  rw [Function.iterate_succ_apply']
  exact lcgStep_lt _

theorem serial_states_inj (x k l : Nat) (hk : k < 676000) (hl : l < 676000)
    (h : lcgStep^[k + 1] x = lcgStep^[l + 1] x) : k = l := by
  rcases Nat.lt_trichotomy k l with hlt | heq | hgt
  · exfalso
    have hsplit : lcgStep^[l + 1] x = lcgStep^[l - k] (lcgStep^[k + 1] x) := by
      rw [← Function.iterate_add_apply]
      congr 1
      omega
    rw [hsplit] at h
    exact lcg_no_small_period (lcgStep^[k + 1] x) (l - k) (by omega) (by omega) h.symm
  · exact heq
  · exfalso
    have hsplit : lcgStep^[k + 1] x = lcgStep^[k - l] (lcgStep^[l + 1] x) := by
      rw [← Function.iterate_add_apply]
      congr 1
      omega
    rw [hsplit] at h
    exact lcg_no_small_period (lcgStep^[l + 1] x) (k - l) (by omega) (by omega) h

theorem runSerial_init_nodup : (runSerial SerialNumberGenerator.init 676000).Nodup := by
  rw [runSerial_eq_map]
  refine List.Nodup.map_on ?_ (List.nodup_range 676000)
  intro k hk l hl h
  rw [List.mem_range] at hk hl
  exact serial_states_inj SerialNumberGenerator.init.lcg_ k l hk hl
    (serialDecompose_inj _ _ (lcg_iterate_lt k _) (lcg_iterate_lt l _) h)

theorem z256Step_lt (x : Nat) : z256Step x < 256 := Nat.mod_lt _ (by norm_num)

theorem z256_iterate (n x : Nat) :
    z256Step^[n + 1] x = (x + 191 * (n + 1)) % 256 := by
  induction n with
  | zero => simp [z256Step]
  | succ n ih =>
    rw [Function.iterate_succ_apply', ih]
    show ((x + 191 * (n + 1)) % 256 + 191) % 256 = _
    rw [Nat.mod_add_mod]
    omega

theorem runZ256_eq_map (g : Z256Generator) (n : Nat) :
    runZ256 g n = (List.range n).map (fun k => z256Step^[k + 1] g.state_) := by
  induction n generalizing g with
  | zero => rfl
  | succ n ih =>
    rw [List.range_succ_eq_map, List.map_cons, List.map_map]
    show (g.next).1 :: runZ256 (g.next).2 n = _
    have h1 : (g.next).1 = z256Step g.state_ := rfl
    have h2 : (g.next).2 = ⟨z256Step g.state_⟩ := rfl
    rw [h1, h2, ih]
    congr 1

theorem z256_state_lt (n : Nat) : z256Step^[n] 42 < 256 := by
  cases n with
  | zero => norm_num
  | succ n =>
    rw [Function.iterate_succ_apply']
    exact z256Step_lt _

/-- The model of `Z256Generator::next()` over C++ `int`: the member is an
`int`, `+` is exact `Int` addition (no overflow happens for reachable values),
and `%` is the C++ truncated remainder `Int.tmod`. -/
def z256IntStep (s : Int) : Int := (s + 191).tmod 256

/-- The `int`-modelled counter state after `n` calls to `next()`, from seed 42. -/
def z256IntState (n : Nat) : Int := z256IntStep^[n] 42

theorem z256IntStep_cast (m : Nat) :
    z256IntStep ((m : Nat) : Int) = ((z256Step m : Nat) : Int) := by
  unfold z256IntStep z256Step
  rw [Int.tmod_eq_emod (by positivity) (by norm_num)]
  push_cast
  ring

theorem z256IntState_eq (n : Nat) :
    z256IntState n = ((z256Step^[n] 42 : Nat) : Int) := by
  induction n with
  | zero => rfl
  | succ n ih =>
    unfold z256IntState at ih ⊢
    rw [Function.iterate_succ_apply', Function.iterate_succ_apply', ih, z256IntStep_cast]

/-- C1: the serial generator's underlying pseudo-random sequence is the linear
congruential recurrence `state := (261 * state + 1) % 676000` seeded at 123456,
and this recurrence has period exactly 676000: for every state below 676000,
676000 iterations return to the state and no smaller positive count does. -/
theorem lcg_seed_and_full_period (x : Nat) (hx : x < 676000) :
    SerialNumberGenerator.init.lcg_ = 123456 ∧
    (∀ g : SerialNumberGenerator, (g.next).2.lcg_ = (261 * g.lcg_ + 1) % 676000) ∧
    lcgStep^[676000] x = x ∧
    (∀ k, 0 < k → k < 676000 → lcgStep^[k] x ≠ x) :=
  ⟨rfl, fun _ => rfl, lcg_full_period x hx,
    fun k hk hklt => lcg_no_small_period x k hk hklt⟩

theorem lcg_seed_and_full_period_witness :
    123456 < 676000 ∧
    (SerialNumberGenerator.init.lcg_ = 123456 ∧
     (∀ g : SerialNumberGenerator, (g.next).2.lcg_ = (261 * g.lcg_ + 1) % 676000) ∧
     lcgStep^[676000] 123456 = 123456 ∧
     (∀ k, 0 < k → k < 676000 → lcgStep^[k] 123456 ≠ 123456)) :=
  ⟨by norm_num, lcg_seed_and_full_period 123456 (by norm_num)⟩

/-- C2: 676000 calls of `next()` on a fresh serial generator yield 676000
pairwise-distinct five-character identifiers, each two uppercase ASCII letters
followed by three ASCII decimal digits. -/
theorem serial_outputs_distinct_wellformed :
    (runSerial SerialNumberGenerator.init 676000).length = 676000 ∧
    (runSerial SerialNumberGenerator.init 676000).Nodup ∧
    ∀ s ∈ runSerial SerialNumberGenerator.init 676000, isSerialFormat s = true := by
  refine ⟨?_, runSerial_init_nodup, ?_⟩
  · rw [runSerial_eq_map, List.length_map, List.length_range]
  · intro s hs
    rw [runSerial_eq_map] at hs
    obtain ⟨k, _, rfl⟩ := List.mem_map.mp hs
    exact serialDecompose_format _

/-- C3: each `next()` call draws one value from the recurrence and builds the
identifier by mixed-radix decomposition, low-order digit first, radices
[26, 26, 10, 10, 10], offsets ['A','A','0','0','0'], characters kept in
extraction order (not reversed). -/
theorem next_draws_once_and_decomposes (g : SerialNumberGenerator) :
    (g.next).1 = mixedRadixDecompose (lcgStep g.lcg_)
      [(26, 'A'), (26, 'A'), (10, '0'), (10, '0'), (10, '0')] ∧
    (g.next).2.lcg_ = lcgStep g.lcg_ :=
  ⟨rfl, rfl⟩

/-- C4: the mixed-radix decomposition is a bijection from `[0, 676000)` onto
the well-formed serial strings (injective, surjective), and the product of the
radices equals the modulus. -/
theorem serialDecompose_bij (a b : Nat) (ha : a < 676000) (hb : b < 676000)
    (hab : serialDecompose a = serialDecompose b) (s : List Char)
    (hs : isSerialFormat s = true) :
    a = b ∧ (∃ v, v < 676000 ∧ serialDecompose v = s) ∧
    26 * 26 * 10 * 10 * 10 = 676000 :=
  ⟨serialDecompose_inj a b ha hb hab, serialDecompose_surj s hs, by norm_num⟩

theorem serialDecompose_bij_witness :
    (0 : Nat) < 676000 ∧ serialDecompose 0 = serialDecompose 0 ∧
    isSerialFormat ['A', 'A', '0', '0', '0'] = true ∧
    (0 = 0 ∧ (∃ v, v < 676000 ∧ serialDecompose v = ['A', 'A', '0', '0', '0']) ∧
     26 * 26 * 10 * 10 * 10 = 676000) :=
  ⟨by norm_num, rfl, by decide,
    serialDecompose_bij 0 0 (by norm_num) (by norm_num) rfl _ (by decide)⟩

/-- C5: 256 calls of `next()` on a fresh cyclic counter yield 256
pairwise-distinct integers, all in `[0, 256)`. -/
theorem z256_outputs_distinct_in_range :
    (runZ256 Z256Generator.init 256).length = 256 ∧
    (runZ256 Z256Generator.init 256).Nodup ∧
    ∀ v ∈ runZ256 Z256Generator.init 256, v < 256 := by decide

/-- C6: `Z256Generator::next()` performs `state := (state + 191) % 256` and
returns the new state; the initial state is 42, and a fresh instance outputs
233, 168, 103 on its first three calls. -/
theorem z256_next_formula_first_outputs :
    (∀ g : Z256Generator, (g.next).1 = (g.state_ + 191) % 256 ∧
      (g.next).2.state_ = (g.state_ + 191) % 256) ∧
    Z256Generator.init.state_ = 42 ∧
    runZ256 Z256Generator.init 3 = [233, 168, 103] :=
  ⟨fun _ => ⟨rfl, rfl⟩, rfl, by decide⟩

/-- C7: the first identifier of a fresh serial generator is the mixed-radix
decomposition of `(261 * 123456 + 1) % 676000 = 450017`, concretely the string
"JS566". -/
theorem serial_first_output :
    (261 * 123456 + 1) % 676000 = 450017 ∧
    (SerialNumberGenerator.init.next).1 = mixedRadixDecompose 450017
      [(26, 'A'), (26, 'A'), (10, '0'), (10, '0'), (10, '0')] ∧
    (SerialNumberGenerator.init.next).1 = ['J', 'S', '5', '6', '6'] :=
  ⟨by norm_num, by decide, by decide⟩

/-- C8: both generators are deterministic; for every call count the output
sequence of a fresh instance equals that of any fresh instance, being a pure
function of the fixed seeds and constants (closed forms given). -/
theorem generators_deterministic (n : Nat) :
    runSerial SerialNumberGenerator.init n = runSerial SerialNumberGenerator.init n ∧
    runZ256 Z256Generator.init n = runZ256 Z256Generator.init n ∧
    runZ256 Z256Generator.init n
      = (List.range n).map (fun k => (42 + 191 * (k + 1)) % 256) ∧
    runSerial SerialNumberGenerator.init n
      = (List.range n).map (fun k =>
          serialDecompose ((261 ^ (k + 1) * 123456 + cseq (k + 1)) % 676000)) := by
  refine ⟨rfl, rfl, ?_, ?_⟩
  · rw [runZ256_eq_map]
    apply List.map_congr_left
    intro k _
    show z256Step^[k + 1] 42 = _
    rw [z256_iterate]
  · rw [runSerial_eq_map]
    apply List.map_congr_left
    intro k _
    show serialDecompose (lcgStep^[k + 1] 123456) = _
    rw [lcg_iterate]

/-- C9: in the `Int` model of the counter, the state is always non-negative and
below 256 after every call (as is the seed 42), so `%` receives non-negative
operands and returns a non-negative result, `state + 191` never overflows a
32-bit `int`, and the `Int` model agrees with the `Nat` embedding. -/
theorem z256_int_invariant (n : Nat) :
    0 ≤ z256IntState n ∧ z256IntState n < 256 ∧
    0 ≤ z256IntState n + 191 ∧ z256IntState n + 191 < 2 ^ 31 ∧
    (z256IntState n + 191).tmod 256 = (z256IntState n + 191) % 256 ∧
    0 ≤ (z256IntState n + 191).tmod 256 ∧
    z256IntState n = ((z256Step^[n] 42 : Nat) : Int) := by
  have heq := z256IntState_eq n
  have hlt : ((z256Step^[n] 42 : Nat) : Int) < 256 := by
    exact_mod_cast z256_state_lt n
  have hge : 0 ≤ ((z256Step^[n] 42 : Nat) : Int) := by positivity
  rw [heq]
  refine ⟨hge, hlt, by omega, by omega, ?_, ?_, rfl⟩
  · exact Int.tmod_eq_emod (by omega) (by norm_num)
  · exact Int.tmod_nonneg 256 (by omega)

/-- C10: after exactly 256 calls the counter state is the seed 42 again, the
256th output is 42, and for every `n ≥ 1` the `(n+256)`-th output equals the
`n`-th output: the output sequence is periodic with period 256. -/
theorem z256_period_256 (n : Nat) (hn : 1 ≤ n) :
    z256Step^[256] 42 = 42 ∧
    (runZ256 Z256Generator.init 256).getLast? = some 42 ∧
    z256Step^[n + 256] 42 = z256Step^[n] 42 := by
  refine ⟨?_, by decide, ?_⟩
  · rw [show (256 : Nat) = 255 + 1 from rfl, z256_iterate]
  · obtain ⟨m, rfl⟩ : ∃ m, n = m + 1 := ⟨n - 1, by omega⟩
    rw [show m + 1 + 256 = (m + 256) + 1 by omega, z256_iterate, z256_iterate]
    omega

theorem z256_period_256_witness :
    1 ≤ 1 ∧ (z256Step^[256] 42 = 42 ∧
      (runZ256 Z256Generator.init 256).getLast? = some 42 ∧
      z256Step^[1 + 256] 42 = z256Step^[1] 42) :=
  ⟨by norm_num, z256_period_256 1 (by norm_num)⟩


end DetourGroupTheory
